import Mathlib

/-!
Verification of the `@humanwhocodes/object-schema` engine
(`src/object-schema.js`) against its natural-language specification.

The JavaScript source is shallowly embedded: records (plain JS objects used
as key/value maps) become ordered association lists over a small inductive
value type, the strategy registry becomes a structure holding the key→strategy
list and the cached required-key list, and the `validate` / `merge` methods
become total Lean functions returning `Except`.  A thrown JS exception is an
`Except.error`; a merge function returning `undefined` is `Option.none`.
-/

set_option autoImplicit false

namespace ObjSchema

/-- JavaScript values appearing in the records of this development.  `nan`
models the IEEE NaN produced e.g. by `undefined + 25`; a key that is absent
(or `undefined`) is modelled by `Option.none` outside this type. -/
inductive Value where
  | num (n : Int)
  | nan
  | str (s : String)
  | boolean (b : Bool)
deriving DecidableEq

/-- A record: a JS object used as a string-keyed map, with its key order
(JS objects preserve insertion order for string keys). -/
abbrev Record := List (String × Value)

/-- The ordered key list of a record, as `Object.keys` returns it. -/
def keysOf (r : Record) : List String :=
  r.map Prod.fst

/-- Property read `r[k]`: the value of the first entry with key `k`,
or `none` (JS `undefined`) when no such entry exists. -/
def rLookup (r : Record) (k : String) : Option Value :=
  match r with
  | [] => none
  | (key, v) :: rest => if key = k then some v else rLookup rest k

/-- The JS `k in r` membership test (our records never store `undefined`). -/
def rHas (r : Record) (k : String) : Bool :=
  (rLookup r k).isSome

/-- Property write `r[k] = v` on a JS object: an existing key keeps its
position and gets the new value; a new key is appended at the end. -/
def jsSet (r : Record) (k : String) (v : Value) : Record :=
  match r with
  | [] => [(k, v)]
  | (key, w) :: rest => if key = k then (k, v) :: rest else (key, w) :: jsSet rest k v

/-- The errors thrown by `validate` and `merge` in `object-schema.js`,
one constructor per distinct message shape the source builds:
`Unexpected key "k" found.`, `Key "k" requires keys "a", "b".`,
`Key "k": <inner message>` (the mutate-and-rethrow prefixing applied to a
user merge/validate failure), `Missing required key "k".`, and
`merge() requires at least two arguments.`. -/
inductive JsError where
  | unexpectedKey (key : String)
  | missingDependency (key : String) (deps : List String)
  | keyError (key : String) (inner : String)
  | missingRequired (key : String)
  | arityError
deriving DecidableEq

/-- A user-supplied merge function: receives `result[key]` and `object[key]`
(each possibly `undefined`), and either throws (message string) or returns a
value (`none` = returned `undefined`). -/
abbrev MergeFn := Option Value → Option Value → Except String (Option Value)

/-- A user-supplied validate function: receives the record's value for the
key and either throws (message string) or returns normally. -/
abbrev ValidateFn := Value → Except String Unit

/-- The `merge` field of a raw strategy definition: a preset name string,
a direct function, or anything that is neither (missing / wrong type). -/
inductive MergeSpec where
  | name (s : String)
  | fn (f : MergeFn)
  | missing

/-- The `validate` field of a raw strategy definition. -/
inductive ValidateSpec where
  | fn (f : ValidateFn)
  | missing

/-- A raw per-key strategy definition as the caller passes it to the
`ObjectSchema` constructor. -/
structure StrategyDef where
  required : Bool
  requires : Option (List String)
  merge : MergeSpec
  validate : ValidateSpec

/-- A caller-supplied definitions mapping: the JS object passed to the
constructor, keys in declaration order. -/
abbrev Definitions := List (String × StrategyDef)

/-- Modelled from the spec: the named-preset merge table (the
`merge-strategy` module that `object-schema.js` requires) is not among the
sources; the spec (§1, §6) describes it as a small named table of trivial
presets such as "overwrite" — "replace last value".  We model the table with
that preset; `overwrite(a, b)` returns its second argument. -/
def MergeStrategy : List (String × MergeFn) :=
  [("overwrite", fun _ b => Except.ok b)]

/-- Preset-name membership test, `strategy.merge in MergeStrategy`. -/
def isPresetName (s : String) : Bool :=
  (MergeStrategy.lookup s).isSome

def mergeStrategyMsg (name : String) : String :=
  "Definition for key \"" ++ name ++ "\" missing valid merge strategy."

def mergePropertyMsg (name : String) : String :=
  "Definition for key \"" ++ name ++ "\" must have a merge property."

def validateMethodMsg (name : String) : String :=
  "Definition for key \"" ++ name ++ "\" must have a validate() method."

/-- `validateDefinition(name, strategy)` from `object-schema.js` (lines
36–53): a string merge must name a known preset (and nothing else is
checked); otherwise merge must be a function, and then validate must be a
function as well. -/
def validateDefinition (name : String) (strategy : StrategyDef) : Except String Unit :=
  match strategy.merge with
  | .name s =>
      if isPresetName s then Except.ok ()
      else Except.error (mergeStrategyMsg name)
  | .fn _ =>
      match strategy.validate with
      | .fn _ => Except.ok ()
      | .missing => Except.error (validateMethodMsg name)
  | .missing => Except.error (mergePropertyMsg name)

/-- The constructor's normalization step (lines 93–98): if the merge field
is a preset name, the definition entry is replaced by a copy whose merge is
the resolved preset function. -/
def normalizeDef (d : StrategyDef) : StrategyDef :=
  match d.merge with
  | .name s =>
      match MergeStrategy.lookup s with
      | some f => { d with merge := .fn f }
      | none => d
  | _ => d

/-- A strategy as stored in the schema's registry after construction: merge
has been normalized to a function.  Calling a non-function field in JS
throws `... is not a function`; the fallback branches reproduce that. -/
structure Strategy where
  required : Bool
  requires : Option (List String)
  merge : MergeFn
  validate : ValidateFn

/-- View of a (normalized) definition as the runtime strategy the engine
invokes. -/
def toStrategy (d : StrategyDef) : Strategy where
  required := d.required
  requires := d.requires
  merge :=
    match d.merge with
    | .fn f => f
    | _ => fun _ _ => Except.error "strategy.merge is not a function"
  validate :=
    match d.validate with
    | .fn f => f
    | .missing => fun _ => Except.error "strategy.validate is not a function"

/-- The state an `ObjectSchema` instance holds after construction: the
key→strategy registry (a `Map`, insertion order preserved) and the
separately cached list of required keys. -/
structure Schema where
  strategies : List (String × Strategy)
  requiredKeys : List String

/-- The constructor loop (lines 89–105): validate each definition in order,
normalize string merges in place, register the strategy, and record required
keys.  Returns the schema together with the final state of the
caller-supplied definitions mapping (the loop assigns `definitions[key]`
in place when it normalizes). -/
def buildLoop (defs : Definitions) : Except String (Schema × Definitions) :=
  match defs with
  | [] => Except.ok (⟨[], []⟩, [])
  | (key, d) :: rest =>
      match validateDefinition key d with
      | .error e => Except.error e
      | .ok _ =>
          match buildLoop rest with
          | .error e => Except.error e
          | .ok (S, rest') =>
              Except.ok
                (⟨(key, toStrategy (normalizeDef d)) :: S.strategies,
                  if (normalizeDef d).required then key :: S.requiredKeys
                  else S.requiredKeys⟩,
                 (key, normalizeDef d) :: rest')

/-- `new ObjectSchema(definitions)` (lines 68–106).  `none` models a missing
/ null / undefined argument (the `!definitions` guard); an empty mapping
passes that guard and yields a schema with no strategies. -/
def buildSchema (defs : Option Definitions) : Except String (Schema × Definitions) :=
  match defs with
  | none => Except.error "Schema definitions missing."
  | some d => buildLoop d

/-- `this[strategies].get(key)`. -/
def lookupStrat (S : Schema) (k : String) : Option Strategy :=
  S.strategies.lookup k

/-- `hasKey(key)` (lines 113–115). -/
def hasKey (S : Schema) (k : String) : Bool :=
  (lookupStrat S k).isSome

/-- The `strategy.validate.call(strategy, object[key])` line (185) wrapped
in its try/catch: a failure is re-thrown with the `Key "k": ` prefix. -/
def checkValue (strat : Strategy) (k : String) (r : Record) : Except JsError Unit :=
  match rLookup r k with
  | none => Except.ok ()
  | some v =>
      match strat.validate v with
      | .ok _ => Except.ok ()
      | .error m => Except.error (.keyError k m)

/-- The per-present-key validation body (lines 166–190) for one key of the
record: unknown-key check first, then the `requires` membership checks,
then the user validate function. -/
def checkKey (S : Schema) (r : Record) (k : String) : Except JsError Unit :=
  match lookupStrat S k with
  | none => Except.error (.unexpectedKey k)
  | some strat =>
      match strat.requires with
      | some deps =>
          if deps.all (fun q => rHas r q) then checkValue strat k r
          else Except.error (.missingDependency k deps)
      | none => checkValue strat k r

/-- The first loop of `validate` over `Object.keys(object)`. -/
def validateKeys (S : Schema) (r : Record) : List String → Except JsError Unit
  | [] => Except.ok ()
  | k :: rest =>
      match checkKey S r k with
      | .error e => Except.error e
      | .ok _ => validateKeys S r rest

/-- The second loop of `validate` over the cached required keys
(lines 193–197). -/
def checkRequired (r : Record) : List String → Except JsError Unit
  | [] => Except.ok ()
  | k :: rest =>
      if rHas r k then checkRequired r rest
      else Except.error (.missingRequired k)

/-- `validate(object)` (lines 163–199): check every key present in the
record, in record order, then check that no required key is missing. -/
def validateRecord (S : Schema) (r : Record) : Except JsError Unit :=
  match validateKeys S r (keysOf r) with
  | .error e => Except.error e
  | .ok _ => checkRequired r S.requiredKeys

/-- The inner strategy loop of one `reduce` step of `merge` (lines
140–152): for each schema key, if the key is in the accumulator or in the
current record, call the merge function on the two property reads; a thrown
error is re-thrown with the `Key "k": ` prefix; a non-`undefined` result is
assigned into the accumulator. -/
def mergeKeys (object : Record) : List (String × Strategy) → Record → Except JsError Record
  | [], result => Except.ok result
  | (key, strat) :: rest, result =>
      if rHas result key || rHas object key then
        match strat.merge (rLookup result key) (rLookup object key) with
        | .error m => Except.error (.keyError key m)
        | .ok none => mergeKeys object rest result
        | .ok (some v) => mergeKeys object rest (jsSet result key v)
      else mergeKeys object rest result

/-- One `reduce` step of `merge` (lines 136–153): validate the current
record, then run the strategy loop against the accumulator. -/
def mergeStep (S : Schema) (result object : Record) : Except JsError Record :=
  match validateRecord S object with
  | .error e => Except.error e
  | .ok _ => mergeKeys object S.strategies result

/-- The `reduce` fold of `merge` over the argument records. -/
def mergeFold (S : Schema) : Record → List Record → Except JsError Record
  | result, [] => Except.ok result
  | result, object :: rest =>
      match mergeStep S result object with
      | .error e => Except.error e
      | .ok res => mergeFold S res rest

/-- `merge(...objects)` (lines 125–155): at least two arguments, then fold
the records left to right starting from a fresh empty object.  (The
`typeof object !== "object"` guard cannot fail in this embedding, whose
`Record` type only contains objects.) -/
def mergeObjects (S : Schema) (objects : List Record) : Except JsError Record :=
  if objects.length < 2 then Except.error .arityError
  else mergeFold S [] objects

/-! ### A heap view of `merge`

To state that `merge` never mutates its argument objects and returns a
fresh object, we also run the fold over an explicit store of objects:
records are store indices, the `reduce` initial value `{}` is a fresh
index allocated at the end of the store, and the net effect of one
`reduce` step — whose only assignment is `result[key] = value` — is to
replace the accumulator object at that fresh index. -/

/-- A store of JS objects; an object reference is an index into it. -/
abbrev Store := List Record

/-- Dereference an object id (ids used by `mergeHeap` are always in
bounds, so the default is never observed). -/
def storeGet (st : Store) (i : Nat) : Record :=
  st.getD i []

/-- The `reduce` fold of `merge` on the store: each step reads the
accumulator object and the current argument object and writes the updated
accumulator back to its index `resId`. -/
def mergeHeapFold (S : Schema) (resId : Nat) : Store → List Nat → Except JsError Store
  | st, [] => Except.ok st
  | st, i :: rest =>
      match mergeStep S (storeGet st resId) (storeGet st i) with
      | .error e => Except.error e
      | .ok res => mergeHeapFold S resId (st.set resId res) rest

/-- `merge(...objects)` on the store: allocate the fresh `{}` accumulator
at index `st.length`, fold over the argument object ids, and return the
result id together with the final store. -/
def mergeHeap (S : Schema) (st : Store) (ids : List Nat) : Except JsError (Nat × Store) :=
  if ids.length < 2 then Except.error .arityError
  else
    match mergeHeapFold S st.length (st ++ [[]]) ids with
    | .error e => Except.error e
    | .ok st2 => Except.ok (st.length, st2)

/-! ### Per-key view of the fold (used to state the corrected merge
call pattern) -/

/-- What one `reduce` step of `merge` does to a single key's slot in the
accumulator: if the key is in neither object nothing happens; otherwise the
key's merge function is called on (accumulator value, record value), a
thrown error is prefixed with the key, a returned `undefined` leaves the
slot as it was, and a returned value replaces it. -/
def keyFoldStep (f : MergeFn) (key : String) (acc x : Option Value) :
    Except JsError (Option Value) :=
  if acc.isSome || x.isSome then
    match f acc x with
    | .error m => Except.error (.keyError key m)
    | .ok none => Except.ok acc
    | .ok (some v) => Except.ok (some v)
  else Except.ok acc

/-- `keyFoldStep` iterated over the values a key takes in the argument
records, starting from the empty accumulator slot. -/
def keyFold (f : MergeFn) (key : String) : Option Value → List (Option Value) →
    Except JsError (Option Value)
  | acc, [] => Except.ok acc
  | acc, x :: rest =>
      match keyFoldStep f key acc x with
      | .error e => Except.error e
      | .ok a => keyFold f key a rest

/-- The record a single-key schema's accumulator is: empty, or the one
key with its current value. -/
def optRecord (key : String) : Option Value → Record
  | none => []
  | some v => [(key, v)]

/-! ### The spec's characterization of a valid record (claim C1) -/

/-- Stated from the spec, for comparison with `validateRecord`: every key
of the record is known to the schema, every declared `requires` dependency
of a present key is present, every per-key validate passes on the record's
value, and every schema-required key is present. -/
def specValid (S : Schema) (r : Record) : Prop :=
  (∀ k, k ∈ keysOf r → hasKey S k = true)
  ∧ (∀ k strat deps, k ∈ keysOf r → lookupStrat S k = some strat →
      strat.requires = some deps → ∀ q ∈ deps, rHas r q = true)
  ∧ (∀ k v strat, rLookup r k = some v → lookupStrat S k = some strat →
      strat.validate v = Except.ok ())
  ∧ (∀ k, k ∈ S.requiredKeys → rHas r k = true)

/-! ### Concrete strategies, schemas and records used in the statements -/

/-- A validate callback that always passes, `validate() {}`. -/
def okValidate : ValidateFn := fun _ => Except.ok ()

/-- A validate callback that always throws, `validate() { throw new Error("bad"); }`. -/
def badValidate : ValidateFn := fun _ => Except.error "bad"

/-- The merge callback `(a, b) => b`: returns the second value (which is
`undefined` when the current record lacks the key). -/
def secondMerge : MergeFn := fun _ b => Except.ok b

/-- The merge callback `merge() { throw new Error("Boom!"); }`. -/
def boomMerge : MergeFn := fun _ _ => Except.error "Boom!"

/-- The merge callback `merge() { return undefined; }`. -/
def absentMerge : MergeFn := fun _ _ => Except.ok none

/-- The merge callback `(a, b) => b !== undefined ? b : (a !== undefined ? a : NaN)`:
always returns a value, preferring the second argument. -/
def keepMerge : MergeFn := fun a b =>
  Except.ok (some ((b.orElse fun _ => a).getD Value.nan))

/-- Modelled for the operand shapes the `downloads` scenario evaluates it
at: JS `+` adds two numbers, and yields NaN as soon as an operand is
`undefined` (which coerces to NaN) or NaN.  No other operand shape occurs
in any statement of this development. -/
def jsAdd : Option Value → Option Value → Value
  | some (.num x), some (.num y) => .num (x + y)
  | _, _ => .nan

/-- The merge callback `(a, b) => a + b` of the downloads scenario. -/
def addMerge : MergeFn := fun a b => Except.ok (some (jsAdd a b))

/-- The validate callback `v => typeof v === "number"` of the downloads
scenario: it returns a boolean instead of throwing, so as a validate
callback it never fails. -/
def typeofNumberValidate : ValidateFn := fun _ => Except.ok ()

def downloadsStrat : Strategy := ⟨true, none, addMerge, typeofNumberValidate⟩

/-- The schema of the downloads scenario:
`{ downloads: { required: true, merge: (a,b) => a+b, validate: v => typeof v === "number" } }`. -/
def downloadsSchema : Schema := ⟨[("downloads", downloadsStrat)], ["downloads"]⟩

def fooSecondStrat : Strategy := ⟨false, none, secondMerge, okValidate⟩

/-- `{ foo: { merge: (a,b) => b, validate() {} } }`. -/
def fooSchema : Schema := ⟨[("foo", fooSecondStrat)], []⟩

def dateStrat : Strategy := ⟨false, none, absentMerge, okValidate⟩

/-- `{ date: { merge: () => undefined, validate() {} } }`. -/
def dateSchema : Schema := ⟨[("date", dateStrat)], []⟩

/-- `{ a: { merge: (a,b) => b, validate() {} }, b: { merge: (a,b) => b, validate() {} } }`,
keys declared in the order a, b. -/
def abSchema : Schema := ⟨[("a", fooSecondStrat), ("b", fooSecondStrat)], []⟩

def badAStrat : Strategy := ⟨false, none, secondMerge, badValidate⟩

def bReqStrat : Strategy := ⟨true, none, secondMerge, okValidate⟩

/-- `{ a: { merge: (a,b) => b, validate: always-throws }, b: { required: true, ... } }`. -/
def precSchema : Schema := ⟨[("a", badAStrat), ("b", bReqStrat)], ["b"]⟩

/-- Like `precSchema` but with a passing validate for key a. -/
def precOkSchema : Schema := ⟨[("a", fooSecondStrat), ("b", bReqStrat)], ["b"]⟩

def keepStrat : Strategy := ⟨false, none, keepMerge, okValidate⟩

/-- A two-key schema whose merge callbacks always return a value. -/
def keepSchema : Schema := ⟨[("a", keepStrat), ("b", keepStrat)], []⟩

def boomStrat : Strategy := ⟨false, none, boomMerge, okValidate⟩

/-- `{ foo: { merge: always-throws, validate() {} } }`. -/
def boomSchema : Schema := ⟨[("foo", boomStrat)], []⟩

/-- A definitions entry whose merge is the preset name "overwrite" and
which supplies no validate function. -/
def presetDef : StrategyDef := ⟨false, none, .name "overwrite", .missing⟩

/-! ## Basic lemmas about records -/

theorem rLookup_isSome_iff_mem (r : Record) (k : String) :
    (rLookup r k).isSome = true ↔ k ∈ keysOf r := by
  induction r with
  | nil => simp [rLookup, keysOf]
  | cons p rest ih =>
      obtain ⟨key, v⟩ := p
      by_cases h : key = k
      · subst h
        simp [rLookup, keysOf]
      · simp [rLookup, keysOf, h, ih, Ne.symm h]

theorem mem_of_rLookup_some {r : Record} {k : String} {v : Value}
    (h : rLookup r k = some v) : k ∈ keysOf r := by
  rw [← rLookup_isSome_iff_mem, h]
  rfl

theorem rLookup_some_of_mem {r : Record} {k : String} (h : k ∈ keysOf r) :
    ∃ v, rLookup r k = some v := by
  rw [← rLookup_isSome_iff_mem] at h
  exact Option.isSome_iff_exists.mp h

theorem rLookup_jsSet_ne (r : Record) {k key : String} (v : Value) (h : k ≠ key) :
    rLookup (jsSet r k v) key = rLookup r key := by
  induction r with
  | nil => simp [jsSet, rLookup, h]
  | cons p rest ih =>
      obtain ⟨key0, w⟩ := p
      by_cases h0 : key0 = k
      · subst h0
        simp [jsSet, rLookup, h]
      · simp [jsSet, rLookup, h0, ih]

theorem keysOf_jsSet_present (r : Record) (k : String) (v : Value)
    (h : rHas r k = true) : keysOf (jsSet r k v) = keysOf r := by
  induction r with
  | nil => simp [rHas, rLookup] at h
  | cons p rest ih =>
      obtain ⟨key0, w⟩ := p
      by_cases h0 : key0 = k
      · subst h0
        simp [jsSet, keysOf]
      · have h' : rHas rest k = true := by
          simpa [rHas, rLookup, h0] using h
        have ih' := ih h'
        simp only [keysOf] at ih'
        simp [jsSet, keysOf, h0, ih']

theorem keysOf_jsSet_new (r : Record) (k : String) (v : Value)
    (h : rHas r k = false) : keysOf (jsSet r k v) = keysOf r ++ [k] := by
  induction r with
  | nil => simp [jsSet, keysOf]
  | cons p rest ih =>
      obtain ⟨key0, w⟩ := p
      by_cases h0 : key0 = k
      · subst h0
        simp [rHas, rLookup] at h
      · have h' : rHas rest k = false := by
          simpa [rHas, rLookup, h0] using h
        have ih' := ih h'
        simp only [keysOf] at ih'
        simp [jsSet, keysOf, h0, ih']

/-! ## Characterizing `validate` (claim C1) -/

theorem checkValue_ok_iff (strat : Strategy) (k : String) (r : Record) :
    checkValue strat k r = Except.ok () ↔
      ∀ v, rLookup r k = some v → strat.validate v = Except.ok () := by
  unfold checkValue
  cases h : rLookup r k with
  | none => simp
  | some v =>
      cases hv : strat.validate v with
      | ok u => simp [hv]
      | error m => simp [hv]

theorem checkKey_ok_iff (S : Schema) (r : Record) (k : String) :
    checkKey S r k = Except.ok () ↔
      ((lookupStrat S k).isSome = true ∧
        ∀ strat, lookupStrat S k = some strat →
          ((∀ deps, strat.requires = some deps → ∀ q ∈ deps, rHas r q = true) ∧
           (∀ v, rLookup r k = some v → strat.validate v = Except.ok ()))) := by
  unfold checkKey
  cases h : lookupStrat S k with
  | none => simp
  | some strat =>
      obtain ⟨sreq, sdeps, smerge, svalid⟩ := strat
      simp only [Option.isSome_some, true_and, Option.some.injEq, forall_eq']
      cases sdeps with
      | none => simp [checkValue_ok_iff]
      | some deps =>
          by_cases hall : deps.all (fun q => rHas r q) = true
          · simp only [hall, if_true]
            rw [checkValue_ok_iff]
            constructor
            · intro hv
              refine ⟨?_, hv⟩
              intro deps0 hdeps0 q hq
              cases hdeps0
              exact List.all_eq_true.mp hall q hq
            · exact fun hy => hy.2
          · simp only [hall, if_false]
            constructor
            · intro hbad
              exact Except.noConfusion hbad
            · intro hy
              exact absurd (List.all_eq_true.mpr (hy.1 deps rfl)) hall

theorem validateKeys_ok_iff (S : Schema) (r : Record) (ks : List String) :
    validateKeys S r ks = Except.ok () ↔ ∀ k ∈ ks, checkKey S r k = Except.ok () := by
  induction ks with
  | nil => simp [validateKeys]
  | cons k rest ih =>
      unfold validateKeys
      cases h : checkKey S r k with
      | error e => simp [h]
      | ok u =>
          cases u
          simp [h, ih]

theorem checkRequired_ok_iff (r : Record) (ks : List String) :
    checkRequired r ks = Except.ok () ↔ ∀ k ∈ ks, rHas r k = true := by
  induction ks with
  | nil => simp [checkRequired]
  | cons k rest ih =>
      unfold checkRequired
      cases h : rHas r k with
      | true => simp [h, ih]
      | false =>
          simp only [h, Bool.false_eq_true, if_false]
          constructor
          · intro hbad
            exact Except.noConfusion hbad
          · intro hall
            rw [hall k (List.mem_cons_self k rest)] at h
            exact Bool.noConfusion h

theorem validateRecord_ok_iff (S : Schema) (r : Record) :
    validateRecord S r = Except.ok () ↔
      (validateKeys S r (keysOf r) = Except.ok () ∧
       checkRequired r S.requiredKeys = Except.ok ()) := by
  unfold validateRecord
  cases h : validateKeys S r (keysOf r) with
  | error e => simp [h]
  | ok u =>
      cases u
      simp [h]

/-- Claim C1: `S.validate(r)` succeeds iff every key of r has a registered
strategy, every declared `requires` dependency of a present key is present
in r, the per-key validate function passes on r's value for every key of r,
and every schema-required key is present in r. -/
theorem validate_succeeds_iff_spec (S : Schema) (r : Record) :
    validateRecord S r = Except.ok () ↔ specValid S r := by
  rw [validateRecord_ok_iff, validateKeys_ok_iff, checkRequired_ok_iff]
  unfold specValid hasKey
  constructor
  · rintro ⟨hkeys, hreq⟩
    refine ⟨?_, ?_, ?_, hreq⟩
    · intro k hk
      exact ((checkKey_ok_iff S r k).mp (hkeys k hk)).1
    · intro k strat deps hk hstrat hdeps q hq
      exact (((checkKey_ok_iff S r k).mp (hkeys k hk)).2 strat hstrat).1 deps hdeps q hq
    · intro k v strat hv hstrat
      have hk : k ∈ keysOf r := mem_of_rLookup_some hv
      exact (((checkKey_ok_iff S r k).mp (hkeys k hk)).2 strat hstrat).2 v hv
  · rintro ⟨h1, h2, h3, h4⟩
    refine ⟨?_, h4⟩
    intro k hk
    refine (checkKey_ok_iff S r k).mpr ⟨h1 k hk, ?_⟩
    intro strat hstrat
    exact ⟨fun deps hdeps q hq => h2 k strat deps hk hstrat hdeps q hq,
           fun v hv => h3 k v strat hv hstrat⟩

/-! ## Claim C2: construction with missing / null / empty definitions -/

/-- Counterexample to claim C2: constructing a schema from an *empty*
definitions mapping succeeds (the constructor only rejects a falsy
`definitions` argument; `{}` is truthy and the strategy loop runs zero
times), yielding a schema with no strategies and no required keys. -/
theorem emptyDefinitions_accepted :
    buildSchema (some []) = Except.ok (⟨[], []⟩, []) := rfl

/-- Claim C2 as amended: construction fails with the definitions-missing
error exactly when the definitions mapping is missing or null; an empty
mapping is accepted and yields a schema with no strategies and no required
keys. -/
theorem buildSchema_missing_fails_empty_succeeds :
    buildSchema none = Except.error "Schema definitions missing." ∧
    buildSchema (some []) = Except.ok (⟨[], []⟩, []) :=
  ⟨rfl, rfl⟩

/-! ## Claim C3: the call pattern of the merge fold -/

theorem rLookup_optRecord (key : String) (acc : Option Value) :
    rLookup (optRecord key acc) key = acc := by
  cases acc <;> simp [optRecord, rLookup]

theorem rHas_optRecord (key : String) (acc : Option Value) :
    rHas (optRecord key acc) key = acc.isSome := by
  rw [rHas, rLookup_optRecord]

theorem jsSet_optRecord (key : String) (acc : Option Value) (v : Value) :
    jsSet (optRecord key acc) key v = [(key, v)] := by
  cases acc <;> simp [optRecord, jsSet]

theorem mergeFold_single_key (S : Schema) (key : String) (strat : Strategy)
    (hS : S.strategies = [(key, strat)]) :
    ∀ (records : List Record) (acc : Option Value),
      (∀ r ∈ records, validateRecord S r = Except.ok ()) →
      mergeFold S (optRecord key acc) records =
        (keyFold strat.merge key acc (records.map fun r => rLookup r key)).map
          (optRecord key) := by
  intro records
  induction records with
  | nil =>
      intro acc _
      simp [mergeFold, keyFold, Except.map]
  | cons r rest ih =>
      intro acc hv
      have hvr : validateRecord S r = Except.ok () := hv r (List.mem_cons_self r rest)
      have hvrest : ∀ x ∈ rest, validateRecord S x = Except.ok () :=
        fun x hx => hv x (List.mem_cons_of_mem r hx)
      have hstep : mergeStep S (optRecord key acc) r =
          (keyFoldStep strat.merge key acc (rLookup r key)).map (optRecord key) := by
        unfold mergeStep
        rw [hS]
        simp only [hvr]
        unfold mergeKeys keyFoldStep
        rw [rHas_optRecord, rLookup_optRecord]
        simp only [rHas]
        by_cases hcond : (acc.isSome || (rLookup r key).isSome) = true
        · rw [if_pos hcond, if_pos hcond]
          cases hm : strat.merge acc (rLookup r key) with
          | error m => simp [Except.map]
          | ok ov =>
              cases ov with
              | none => simp [Except.map, mergeKeys]
              | some v =>
                  simp only [Except.map, mergeKeys, jsSet_optRecord]
                  rfl
        · rw [if_neg hcond, if_neg hcond]
          simp [mergeKeys, Except.map]
      unfold mergeFold
      rw [hstep]
      simp only [List.map_cons]
      unfold keyFold
      cases hks : keyFoldStep strat.merge key acc (rLookup r key) with
      | error e => simp [Except.map]
      | ok a =>
          simp only [Except.map]
          exact ih a hvrest

/-- Claim C3 as amended: `merge` folds left to right starting from an empty
accumulator, so for a single-key schema each key's merge function is invoked
pairwise — first with `(undefined, r1[k])`, then with the accumulator slot
against `r2[k]`, `r3[k]`, … — never with all values at once; a returned
`undefined` leaves the accumulator slot unchanged.  (In the downloads
scenario the first invocation is therefore `25 + undefined`, giving NaN,
not 150 — see the counterexample.) -/
theorem merge_single_key_pairwise_fold (S : Schema) (key : String) (strat : Strategy)
    (hS : S.strategies = [(key, strat)]) (records : List Record)
    (h2 : 2 ≤ records.length)
    (hv : ∀ r ∈ records, validateRecord S r = Except.ok ()) :
    mergeObjects S records =
      (keyFold strat.merge key none (records.map fun r => rLookup r key)).map
        (optRecord key) := by
  unfold mergeObjects
  rw [if_neg (by omega)]
  exact mergeFold_single_key S key strat hS records none hv

/-- Witness for `merge_single_key_pairwise_fold` at the downloads scenario. -/
theorem merge_single_key_pairwise_fold_witness :
    2 ≤ ([[("downloads", Value.num 25)], [("downloads", Value.num 125)]] : List Record).length ∧
    downloadsSchema.strategies = [("downloads", downloadsStrat)] ∧
    mergeObjects downloadsSchema [[("downloads", Value.num 25)], [("downloads", Value.num 125)]] =
      (keyFold downloadsStrat.merge "downloads" none
          (([[("downloads", Value.num 25)], [("downloads", Value.num 125)]] : List Record).map
            fun r => rLookup r "downloads")).map (optRecord "downloads") := by
  refine ⟨by decide, rfl, ?_⟩
  refine merge_single_key_pairwise_fold downloadsSchema "downloads" downloadsStrat rfl _
    (by decide) ?_
  intro r hr
  simp only [List.mem_cons, List.mem_singleton, List.not_mem_nil, or_false] at hr
  rcases hr with rfl | rfl <;> rfl

/-- Counterexample to claim C3: with the downloads schema
`{ downloads: { required: true, merge: (a,b) => a+b, validate: v => typeof v === "number" } }`,
`merge({downloads: 25}, {downloads: 125})` returns `{downloads: NaN}` — not
`{downloads: 150}` — because the fold starts from an empty accumulator, so
the first merge invocation is `(undefined, 25)` and `undefined + 25` is NaN
in JavaScript. -/
theorem downloads_merge_not_150 :
    mergeObjects downloadsSchema
        [[("downloads", Value.num 25)], [("downloads", Value.num 125)]] =
      Except.ok [("downloads", Value.nan)] ∧
    Value.nan ≠ Value.num 150 :=
  ⟨rfl, by decide⟩

/-! ## Claim C4: a merge function returning the absent sentinel -/

theorem mergeKeys_lookup_of_absent (object : Record) (key : String) :
    ∀ (strats : List (String × Strategy)) (result res : Record),
      (∀ p ∈ strats, p.1 = key → ∀ a b, p.2.merge a b = Except.ok none) →
      mergeKeys object strats result = Except.ok res →
      rLookup res key = rLookup result key := by
  intro strats
  induction strats with
  | nil =>
      intro result res _ h
      injection h with h
      rw [← h]
  | cons p rest ih =>
      obtain ⟨k0, strat0⟩ := p
      intro result res habs h
      have habs' : ∀ p ∈ rest, p.1 = key → ∀ a b, p.2.merge a b = Except.ok none :=
        fun p hp => habs p (List.mem_cons_of_mem _ hp)
      unfold mergeKeys at h
      by_cases hcond : (rHas result k0 || rHas object k0) = true
      · rw [if_pos hcond] at h
        cases hm : strat0.merge (rLookup result k0) (rLookup object k0) with
        | error m =>
            rw [hm] at h
            exact Except.noConfusion h
        | ok ov =>
            rw [hm] at h
            cases ov with
            | none => exact ih result res habs' h
            | some v =>
                by_cases hk0 : k0 = key
                · exfalso
                  have := habs (k0, strat0) (List.mem_cons_self _ _) hk0
                    (rLookup result k0) (rLookup object k0)
                  rw [hm] at this
                  injection this with this
                  exact Option.noConfusion this
                · have := ih (jsSet result k0 v) res habs' h
                  rw [this, rLookup_jsSet_ne result v hk0]
      · rw [if_neg hcond] at h
        exact ih result res habs' h

theorem mergeStep_lookup_of_absent (S : Schema) (result object res : Record)
    (key : String)
    (habs : ∀ p ∈ S.strategies, p.1 = key → ∀ a b, p.2.merge a b = Except.ok none)
    (h : mergeStep S result object = Except.ok res) :
    rLookup res key = rLookup result key := by
  unfold mergeStep at h
  cases hval : validateRecord S object with
  | error e =>
      rw [hval] at h
      exact Except.noConfusion h
  | ok u =>
      cases u
      rw [hval] at h
      exact mergeKeys_lookup_of_absent object key S.strategies result res habs h

theorem mergeFold_lookup_of_absent (S : Schema) (key : String)
    (habs : ∀ p ∈ S.strategies, p.1 = key → ∀ a b, p.2.merge a b = Except.ok none) :
    ∀ (records : List Record) (result res : Record),
      rLookup result key = none →
      mergeFold S result records = Except.ok res →
      rLookup res key = none := by
  intro records
  induction records with
  | nil =>
      intro result res hnone h
      injection h with h
      rw [← h]
      exact hnone
  | cons r rest ih =>
      intro result res hnone h
      unfold mergeFold at h
      cases hstep : mergeStep S result r with
      | error e =>
          rw [hstep] at h
          exact Except.noConfusion h
      | ok mid =>
          rw [hstep] at h
          have hmid : rLookup mid key = none :=
            (mergeStep_lookup_of_absent S result r mid key habs hstep).trans hnone
          exact ih mid res hmid h

/-- Claim C4 as amended: when a key's merge function returns the absent
sentinel (`undefined`), the fold simply does not assign the key for that
step — the accumulator slot is left exactly as it was.  A key that was
absent stays absent, so a merge function that always returns the sentinel
yields an output record without the key no matter how many records are
folded; but a value the accumulator already held is retained, not removed
(see the counterexample). -/
theorem merge_absent_sentinel_never_assigns :
    (∀ (S : Schema) (result object res : Record) (key : String),
        (∀ p ∈ S.strategies, p.1 = key → ∀ a b, p.2.merge a b = Except.ok none) →
        mergeStep S result object = Except.ok res →
        rLookup res key = rLookup result key) ∧
    (∀ (S : Schema) (records : List Record) (res : Record) (key : String),
        (∀ p ∈ S.strategies, p.1 = key → ∀ a b, p.2.merge a b = Except.ok none) →
        mergeObjects S records = Except.ok res →
        rLookup res key = none) := by
  constructor
  · exact mergeStep_lookup_of_absent
  · intro S records res key habs h
    unfold mergeObjects at h
    by_cases hlen : records.length < 2
    · rw [if_pos hlen] at h
      exact Except.noConfusion h
    · rw [if_neg hlen] at h
      exact mergeFold_lookup_of_absent S key habs records [] res rfl h

/-- Witness for `merge_absent_sentinel_never_assigns` at the spec's date
scenario: `{ date: { merge: () => undefined, ... } }`,
`merge({date:"5/5"}, {date:"6/6"})` has no `date` key. -/
theorem merge_absent_sentinel_never_assigns_witness :
    (∀ p ∈ dateSchema.strategies, p.1 = "date" →
        ∀ a b, p.2.merge a b = Except.ok none) ∧
    mergeObjects dateSchema [[("date", Value.str "5/5")], [("date", Value.str "6/6")]] =
      Except.ok [] ∧
    rLookup ([] : Record) "date" = none := by
  have habs : ∀ p ∈ dateSchema.strategies, p.1 = "date" →
      ∀ a b, p.2.merge a b = Except.ok none := by
    intro p hp hk a b
    simp only [dateSchema, List.mem_singleton] at hp
    subst hp
    rfl
  refine ⟨habs, rfl, ?_⟩
  exact merge_absent_sentinel_never_assigns.2 dateSchema
    [[("date", Value.str "5/5")], [("date", Value.str "6/6")]] [] "date" habs rfl

/-- Counterexample to claim C4: with `{ foo: { merge: (a,b) => b, ... } }`,
merging `{foo: 1}` with `{}` calls the merge function at the second step
with `(1, undefined)`; it returns `undefined`, yet `foo` is *not* removed
from the accumulator — the result still maps `foo` to 1, where the claim
says the key must be absent after that step. -/
theorem absent_result_keeps_previous_value :
    secondMerge (some (Value.num 1)) none = Except.ok none ∧
    mergeObjects fooSchema [[("foo", Value.num 1)], []] =
      Except.ok [("foo", Value.num 1)] :=
  ⟨rfl, rfl⟩

/-! ## Claim C5: precedence of the unknown-key failure -/

theorem checkKey_unknown (S : Schema) (r : Record) (k : String)
    (h : hasKey S k = false) : checkKey S r k = Except.error (.unexpectedKey k) := by
  unfold checkKey
  unfold hasKey at h
  cases hl : lookupStrat S k with
  | none => rfl
  | some strat =>
      rw [hl] at h
      exact Bool.noConfusion h

theorem checkValue_shape (strat : Strategy) (k : String) (r : Record) :
    checkValue strat k r = Except.ok () ∨
      ∃ m, checkValue strat k r = Except.error (.keyError k m) := by
  cases hr : rLookup r k with
  | none => exact Or.inl (by simp [checkValue, hr])
  | some v =>
      cases hv : strat.validate v with
      | ok u =>
          cases u
          exact Or.inl (by simp [checkValue, hr, hv])
      | error m =>
          exact Or.inr ⟨m, by simp [checkValue, hr, hv]⟩

theorem checkKey_error_shape (S : Schema) (r : Record) (k : String) (e : JsError)
    (h : checkKey S r k = Except.error e) :
    e = .unexpectedKey k ∨ (∃ ds, e = .missingDependency k ds) ∨
      ∃ m, e = .keyError k m := by
  unfold checkKey at h
  cases hl : lookupStrat S k with
  | none =>
      simp only [hl] at h
      injection h with h
      exact Or.inl h.symm
  | some strat =>
      simp only [hl] at h
      cases hreq : strat.requires with
      | none =>
          simp only [hreq] at h
          rcases checkValue_shape strat k r with hs | ⟨m, hs⟩
          · rw [hs] at h
            exact Except.noConfusion h
          · rw [hs] at h
            injection h with h
            exact Or.inr (Or.inr ⟨m, h.symm⟩)
      | some deps =>
          simp only [hreq] at h
          by_cases hall : deps.all (fun q => rHas r q) = true
          · rw [if_pos hall] at h
            rcases checkValue_shape strat k r with hs | ⟨m, hs⟩
            · rw [hs] at h
              exact Except.noConfusion h
            · rw [hs] at h
              injection h with h
              exact Or.inr (Or.inr ⟨m, h.symm⟩)
          · rw [if_neg hall] at h
            injection h with h
            exact Or.inr (Or.inl ⟨deps, h.symm⟩)

theorem validateKeys_error_mem (S : Schema) (r : Record) :
    ∀ (ks : List String) (e : JsError), validateKeys S r ks = Except.error e →
      ∃ k ∈ ks, checkKey S r k = Except.error e := by
  intro ks
  induction ks with
  | nil =>
      intro e h
      exact Except.noConfusion h
  | cons k rest ih =>
      intro e h
      unfold validateKeys at h
      cases hck : checkKey S r k with
      | error e0 =>
          rw [hck] at h
          injection h with h
          exact ⟨k, List.mem_cons_self k rest, by rw [hck, h]⟩
      | ok u =>
          cases u
          rw [hck] at h
          obtain ⟨k0, hk0, hck0⟩ := ih e h
          exact ⟨k0, List.mem_cons_of_mem k hk0, hck0⟩

theorem validateKeys_first_unknown (S : Schema) (r : Record) :
    ∀ (ks : List String) (u : String),
      ks.find? (fun k => !(hasKey S k)) = some u →
      (∀ k ∈ ks, hasKey S k = true → checkKey S r k = Except.ok ()) →
      validateKeys S r ks = Except.error (.unexpectedKey u) := by
  intro ks
  induction ks with
  | nil =>
      intro u h _
      exact Option.noConfusion h
  | cons k rest ih =>
      intro u h hok
      unfold validateKeys
      cases hk : hasKey S k with
      | false =>
          have hu : u = k := by
            rw [List.find?_cons_of_pos _ (by simp [hk])] at h
            injection h with h
            exact h.symm
          subst hu
          rw [checkKey_unknown S r u hk]
      | true =>
          have hck := hok k (List.mem_cons_self k rest) hk
          rw [hck]
          refine ih u ?_ (fun k0 hk0 => hok k0 (List.mem_cons_of_mem k hk0))
          rw [List.find?_cons_of_neg _ (by simp [hk])] at h
          exact h

/-- Claim C5 as amended: the required-keys pass runs only after every key
present in the record has passed its checks, so a record containing a key
with no registered strategy never fails with the missing-required-key
error; and when every *known* key present in the record passes its
`requires` and validate checks, validation fails with the unknown-key error
naming the first unknown key in record order.  (A known key that fails its
own checks earlier in the record pre-empts the unknown-key error — see the
counterexample.) -/
theorem unknown_key_precedence :
    (∀ (S : Schema) (r : Record) (u : String),
        (keysOf r).find? (fun k => !(hasKey S k)) = some u →
        (∀ k ∈ keysOf r, hasKey S k = true → checkKey S r k = Except.ok ()) →
        validateRecord S r = Except.error (.unexpectedKey u)) ∧
    (∀ (S : Schema) (r : Record) (k m : String),
        k ∈ keysOf r → hasKey S k = false →
        validateRecord S r ≠ Except.error (.missingRequired m)) := by
  constructor
  · intro S r u hfind hok
    unfold validateRecord
    rw [validateKeys_first_unknown S r (keysOf r) u hfind hok]
  · intro S r k m hk hunk h
    unfold validateRecord at h
    cases hvk : validateKeys S r (keysOf r) with
    | error e =>
        rw [hvk] at h
        injection h with h
        subst h
        obtain ⟨k0, _, hck0⟩ := validateKeys_error_mem S r (keysOf r) _ hvk
        rcases checkKey_error_shape S r k0 _ hck0 with hs | ⟨ds, hs⟩ | ⟨m0, hs⟩ <;>
          exact JsError.noConfusion hs
    | ok u =>
        cases u
        have := ((checkKey_ok_iff S r k).mp
          ((validateKeys_ok_iff S r (keysOf r)).mp hvk k hk)).1
        unfold hasKey at hunk
        rw [hunk] at this
        exact Bool.noConfusion this

/-- Witness for `unknown_key_precedence`: a record whose known key `a`
passes and whose key `x` is unknown fails with the unknown-key error for
`x`, although the required key `b` is also missing. -/
theorem unknown_key_precedence_witness :
    ((keysOf [("a", Value.num 1), ("x", Value.num 2)]).find?
        (fun k => !(hasKey precOkSchema k)) = some "x") ∧
    rHas [("a", Value.num 1), ("x", Value.num 2)] "b" = false ∧
    validateRecord precOkSchema [("a", Value.num 1), ("x", Value.num 2)] =
      Except.error (.unexpectedKey "x") := by
  refine ⟨by decide, by decide, ?_⟩
  refine unknown_key_precedence.1 precOkSchema _ "x" (by decide) ?_
  intro k hk hkk
  simp only [keysOf, List.map_cons, List.map_nil, List.mem_cons, List.mem_singleton,
    List.not_mem_nil, or_false] at hk
  rcases hk with rfl | rfl
  · rfl
  · exact absurd hkk (by decide)

/-- Counterexample to claim C5: the record `{a: 1, x: 2}` against the
schema `{ a: { validate: always-throws, ... }, b: { required: true, ... } }`
contains the unknown key `x` and omits the required key `b`, yet validation
fails with the *validation* error for key `a` (the record's first key),
not with the unknown-key error. -/
theorem earlier_key_failure_preempts_unknown_key :
    hasKey precSchema "x" = false ∧
    "b" ∈ precSchema.requiredKeys ∧
    rHas [("a", Value.num 1), ("x", Value.num 2)] "b" = false ∧
    validateRecord precSchema [("a", Value.num 1), ("x", Value.num 2)] =
      Except.error (.keyError "a" "bad") ∧
    JsError.keyError "a" "bad" ≠ JsError.unexpectedKey "x" :=
  ⟨by decide, by decide, by decide, rfl, by decide⟩

/-! ## Claim C6: key order of the merge output -/

theorem rHas_iff_mem (r : Record) (k : String) :
    rHas r k = true ↔ k ∈ keysOf r := by
  rw [rHas]
  exact rLookup_isSome_iff_mem r k

theorem rLookup_none_of_rHas_false {r : Record} {k : String}
    (h : rHas r k = false) : rLookup r k = none := by
  unfold rHas at h
  cases hl : rLookup r k with
  | none => rfl
  | some v =>
      rw [hl] at h
      exact Bool.noConfusion h

theorem rLookup_jsSet_self (r : Record) (k : String) (v : Value) :
    rLookup (jsSet r k v) k = some v := by
  induction r with
  | nil => simp [jsSet, rLookup]
  | cons p rest ih =>
      obtain ⟨key0, w⟩ := p
      by_cases h0 : key0 = k
      · subst h0
        simp [jsSet, rLookup]
      · simp [jsSet, rLookup, h0, ih]

theorem rHas_jsSet_ne (r : Record) {k q : String} (v : Value) (h : k ≠ q) :
    rHas (jsSet r k v) q = rHas r q := by
  unfold rHas
  rw [rLookup_jsSet_ne r v h]

/-- The strategy loop over keys disjoint from the accumulator (the first
fold step): every schema key present in the record is appended, in schema
order. -/
theorem mergeKeys_keys_total (object : Record) :
    ∀ (strats : List (String × Strategy)) (acc : Record),
      (∀ p ∈ strats, ∀ a b : Option Value, (a.isSome || b.isSome) = true →
          ∃ v, p.2.merge a b = Except.ok (some v)) →
      (∀ p ∈ strats, rHas acc p.1 = false) →
      (strats.map Prod.fst).Nodup →
      ∃ res, mergeKeys object strats acc = Except.ok res ∧
        keysOf res = keysOf acc ++
          (strats.map Prod.fst).filter (fun k => rHas object k) := by
  intro strats
  induction strats with
  | nil =>
      intro acc _ _ _
      exact ⟨acc, rfl, by simp [mergeKeys]⟩
  | cons p rest ih =>
      obtain ⟨k0, s0⟩ := p
      intro acc htot hdisj hnd
      have hacc0 : rHas acc k0 = false := hdisj (k0, s0) (List.mem_cons_self _ _)
      have htot' : ∀ p ∈ rest, ∀ a b : Option Value, (a.isSome || b.isSome) = true →
          ∃ v, p.2.merge a b = Except.ok (some v) :=
        fun p hp => htot p (List.mem_cons_of_mem _ hp)
      have hnd' : (rest.map Prod.fst).Nodup := List.Nodup.of_cons hnd
      unfold mergeKeys
      rw [hacc0, Bool.false_or]
      cases hobj : rHas object k0 with
      | false =>
          have hdisj' : ∀ p ∈ rest, rHas acc p.1 = false :=
            fun p hp => hdisj p (List.mem_cons_of_mem _ hp)
          obtain ⟨res, hres, hkeys⟩ := ih acc htot' hdisj' hnd'
          exact ⟨res, hres, by simp [hkeys, hobj]⟩
      | true =>
          have hsome : (rLookup object k0).isSome = true := hobj
          obtain ⟨v, hv⟩ := htot (k0, s0) (List.mem_cons_self _ _)
            (rLookup acc k0) (rLookup object k0) (by simp [hsome])
          rw [hv]
          have hnd2 : (k0 :: rest.map Prod.fst).Nodup := hnd
          have hknotmem : k0 ∉ rest.map Prod.fst := (List.nodup_cons.mp hnd2).1
          have hdisj' : ∀ p ∈ rest, rHas (jsSet acc k0 v) p.1 = false := by
            intro p hp
            have hne : k0 ≠ p.1 := by
              intro hkeq
              exact hknotmem (hkeq ▸ List.mem_map_of_mem Prod.fst hp)
            rw [rHas_jsSet_ne acc v hne]
            exact hdisj p (List.mem_cons_of_mem _ hp)
          obtain ⟨res, hres, hkeys⟩ := ih (jsSet acc k0 v) htot' hdisj' hnd'
          refine ⟨res, hres, ?_⟩
          rw [hkeys, keysOf_jsSet_new acc k0 v hacc0]
          simp [hobj]

/-- The strategy loop when every schema key of the current record is
already in the accumulator (later fold steps): the accumulator's key list
is unchanged. -/
theorem mergeKeys_keys_preserved (object : Record) :
    ∀ (strats : List (String × Strategy)) (acc : Record),
      (∀ p ∈ strats, ∀ a b : Option Value, (a.isSome || b.isSome) = true →
          ∃ v, p.2.merge a b = Except.ok (some v)) →
      (∀ p ∈ strats, rHas object p.1 = true → rHas acc p.1 = true) →
      ∃ res, mergeKeys object strats acc = Except.ok res ∧
        keysOf res = keysOf acc := by
  intro strats
  induction strats with
  | nil =>
      intro acc _ _
      exact ⟨acc, rfl, rfl⟩
  | cons p rest ih =>
      obtain ⟨k0, s0⟩ := p
      intro acc htot hcov
      have htot' : ∀ p ∈ rest, ∀ a b : Option Value, (a.isSome || b.isSome) = true →
          ∃ v, p.2.merge a b = Except.ok (some v) :=
        fun p hp => htot p (List.mem_cons_of_mem _ hp)
      unfold mergeKeys
      cases hcond : (rHas acc k0 || rHas object k0) with
      | false =>
          have hcov' : ∀ p ∈ rest, rHas object p.1 = true → rHas acc p.1 = true :=
            fun p hp => hcov p (List.mem_cons_of_mem _ hp)
          exact ih acc htot' hcov'
      | true =>
          have hacc0 : rHas acc k0 = true := by
            rcases Bool.or_eq_true_iff.mp hcond with h | h
            · exact h
            · exact hcov (k0, s0) (List.mem_cons_self _ _) h
          obtain ⟨v, hv⟩ := htot (k0, s0) (List.mem_cons_self _ _)
            (rLookup acc k0) (rLookup object k0) (by simp [rHas] at hacc0; simp [hacc0])
          rw [hv]
          have hcov' : ∀ p ∈ rest, rHas object p.1 = true →
              rHas (jsSet acc k0 v) p.1 = true := by
            intro p hp hpobj
            by_cases hne : k0 = p.1
            · rw [← hne]
              unfold rHas
              rw [rLookup_jsSet_self]
              rfl
            · rw [rHas_jsSet_ne acc v hne]
              exact hcov p (List.mem_cons_of_mem _ hp) hpobj
          obtain ⟨res, hres, hkeys⟩ := ih (jsSet acc k0 v) htot' hcov'
          exact ⟨res, hres, by rw [hkeys, keysOf_jsSet_present acc k0 v hacc0]⟩

theorem mergeFold_keys_invariant (S : Schema) (r1 : Record)
    (htot : ∀ p ∈ S.strategies, ∀ a b : Option Value, (a.isSome || b.isSome) = true →
        ∃ v, p.2.merge a b = Except.ok (some v)) :
    ∀ (rest : List Record) (acc : Record),
      (∀ r ∈ rest, validateRecord S r = Except.ok ()) →
      (∀ r ∈ rest, ∀ k ∈ keysOf r, k ∈ keysOf r1) →
      keysOf acc = (S.strategies.map Prod.fst).filter (fun k => rHas r1 k) →
      ∃ res, mergeFold S acc rest = Except.ok res ∧
        keysOf res = (S.strategies.map Prod.fst).filter (fun k => rHas r1 k) := by
  intro rest
  induction rest with
  | nil =>
      intro acc _ _ hacc
      exact ⟨acc, rfl, hacc⟩
  | cons r rest' ih =>
      intro acc hv hsub hacc
      have hvr : validateRecord S r = Except.ok () := hv r (List.mem_cons_self _ _)
      have hcov : ∀ p ∈ S.strategies, rHas r p.1 = true → rHas acc p.1 = true := by
        intro p hp hpobj
        have hpk : p.1 ∈ keysOf r := (rHas_iff_mem r p.1).mp hpobj
        have hpr1 : p.1 ∈ keysOf r1 := hsub r (List.mem_cons_self _ _) p.1 hpk
        have hmem : p.1 ∈ keysOf acc := by
          rw [hacc]
          refine List.mem_filter.mpr ⟨List.mem_map_of_mem Prod.fst hp, ?_⟩
          exact (rHas_iff_mem r1 p.1).mpr hpr1
        exact (rHas_iff_mem acc p.1).mpr hmem
      obtain ⟨mid, hmid, hmidkeys⟩ := mergeKeys_keys_preserved r S.strategies acc htot hcov
      have hstep : mergeStep S acc r = Except.ok mid := by
        unfold mergeStep
        rw [hvr]
        exact hmid
      unfold mergeFold
      rw [hstep]
      exact ih mid (fun x hx => hv x (List.mem_cons_of_mem _ hx))
        (fun x hx => hsub x (List.mem_cons_of_mem _ hx)) (hmidkeys.trans hacc)

/-- Claim C6 as amended: within one fold step, newly assigned keys are
appended in schema declaration order and already-present keys keep their
position; hence, provided the involved merge functions always return a
value and every key of each later record already appears in the first
record, the output's key order is the schema declaration order (restricted
to the keys of the first record).  In general a key first assigned in a
later fold step is appended after all earlier-assigned keys, which can
violate schema order — see the counterexample. -/
theorem merge_output_order_first_record (S : Schema)
    (hnd : (S.strategies.map Prod.fst).Nodup)
    (htot : ∀ p ∈ S.strategies, ∀ a b : Option Value, (a.isSome || b.isSome) = true →
        ∃ v, p.2.merge a b = Except.ok (some v))
    (r1 : Record) (rest : List Record) (hrest : rest ≠ [])
    (hv : ∀ r ∈ r1 :: rest, validateRecord S r = Except.ok ())
    (hsub : ∀ r ∈ rest, ∀ k ∈ keysOf r, k ∈ keysOf r1) :
    ∃ res, mergeObjects S (r1 :: rest) = Except.ok res ∧
      keysOf res = (S.strategies.map Prod.fst).filter (fun k => rHas r1 k) := by
  unfold mergeObjects
  rw [if_neg (by
    simp only [List.length_cons, not_lt]
    have := List.length_pos.mpr hrest
    omega)]
  have hvr1 : validateRecord S r1 = Except.ok () := hv r1 (List.mem_cons_self _ _)
  obtain ⟨res1, hres1, hkeys1⟩ := mergeKeys_keys_total r1 S.strategies []
    htot (fun p _ => rfl) hnd
  have hstep1 : mergeStep S [] r1 = Except.ok res1 := by
    unfold mergeStep
    rw [hvr1]
    exact hres1
  unfold mergeFold
  rw [hstep1]
  exact mergeFold_keys_invariant S r1 htot rest res1
    (fun x hx => hv x (List.mem_cons_of_mem _ hx)) hsub
    (by simpa [keysOf] using hkeys1)

/-- Witness for `merge_output_order_first_record`: with a schema declared
[a, b] whose merges always return a value, merging `{a:1, b:2}` with
`{a:3}` yields output keys in schema order [a, b]. -/
theorem merge_output_order_first_record_witness :
    mergeObjects keepSchema
        [[("a", Value.num 1), ("b", Value.num 2)], [("a", Value.num 3)]] =
      Except.ok [("a", Value.num 3), ("b", Value.num 2)] ∧
    ∃ res, mergeObjects keepSchema
        [[("a", Value.num 1), ("b", Value.num 2)], [("a", Value.num 3)]] =
        Except.ok res ∧
      keysOf res = (keepSchema.strategies.map Prod.fst).filter
        (fun k => rHas [("a", Value.num 1), ("b", Value.num 2)] k) := by
  refine ⟨rfl, ?_⟩
  refine merge_output_order_first_record keepSchema (by decide) ?_
    [("a", Value.num 1), ("b", Value.num 2)] [[("a", Value.num 3)]]
    (by simp) ?_ ?_
  · intro p hp a b hab
    have hm : p.2.merge = keepMerge := by
      simp only [keepSchema, List.mem_cons, List.mem_singleton, List.not_mem_nil,
        or_false] at hp
      rcases hp with rfl | rfl <;> rfl
    rw [hm]
    exact ⟨(b.orElse fun _ => a).getD Value.nan, rfl⟩
  · intro r hr
    simp only [List.mem_cons, List.mem_singleton, List.not_mem_nil, or_false] at hr
    rcases hr with rfl | rfl <;> rfl
  · intro r hr k hk
    simp only [List.mem_singleton, List.not_mem_nil, List.mem_cons, or_false] at hr
    subst hr
    simp only [keysOf, List.map_cons, List.map_nil, List.mem_singleton,
      List.not_mem_nil, List.mem_cons, or_false] at hk
    subst hk
    decide

/-- Counterexample to claim C6: with the schema declared in order [a, b]
(all records valid for it), `merge({b:1}, {a:2})` returns a record whose
key order is [b, a] — the key `a`, first assigned during the second fold
step, is appended after `b` — not the schema declaration order [a, b]. -/
theorem merge_output_order_not_schema_order :
    mergeObjects abSchema [[("b", Value.num 1)], [("a", Value.num 2)]] =
      Except.ok [("b", Value.num 1), ("a", Value.num 2)] ∧
    keysOf [("b", Value.num 1), ("a", Value.num 2)] = ["b", "a"] ∧
    (abSchema.strategies.map Prod.fst).filter
        (fun k => rHas [("b", Value.num 1), ("a", Value.num 2)] k) = ["a", "b"] ∧
    (["b", "a"] : List String) ≠ ["a", "b"] :=
  ⟨rfl, rfl, by decide, by decide⟩

/-! ## Claim C7: merge mutates neither input, and returns a fresh object -/

theorem storeGet_set_ne (st : Store) (n j : Nat) (r : Record) (h : j ≠ n) :
    storeGet (st.set n r) j = storeGet st j := by
  induction st generalizing n j with
  | nil => rfl
  | cons a t ih =>
      cases n with
      | zero =>
          cases j with
          | zero => exact absurd rfl h
          | succ j0 => rfl
      | succ n0 =>
          cases j with
          | zero => rfl
          | succ j0 => exact ih n0 j0 (fun hh => h (congrArg Nat.succ hh))

theorem storeGet_append_lt (st : Store) (x : Record) (i : Nat) (h : i < st.length) :
    storeGet (st ++ [x]) i = storeGet st i := by
  induction st generalizing i with
  | nil => exact absurd h (by simp)
  | cons a t ih =>
      cases i with
      | zero => rfl
      | succ i0 => exact ih i0 (by simpa using h)

theorem mergeHeapFold_frame (S : Schema) (n : Nat) :
    ∀ (ids : List Nat) (st st2 : Store),
      mergeHeapFold S n st ids = Except.ok st2 →
      ∀ j, j ≠ n → storeGet st2 j = storeGet st j := by
  intro ids
  induction ids with
  | nil =>
      intro st st2 h j hj
      injection h with h
      rw [← h]
  | cons i rest ih =>
      intro st st2 h j hj
      unfold mergeHeapFold at h
      cases hstep : mergeStep S (storeGet st n) (storeGet st i) with
      | error e =>
          rw [hstep] at h
          exact Except.noConfusion h
      | ok res =>
          rw [hstep] at h
          rw [ih (st.set n res) st2 h j hj, storeGet_set_ne st n j res hj]

/-- Claim C7: `merge` allocates its result object fresh (the `reduce`
initial value `{}`) and only ever writes to that object, so the result id
is distinct from every input id and every input object is bit-for-bit
unchanged in the final store.  (`validate` performs no writes at all: its
embedding `validateRecord` reads the record purely, so the record it checks
is unchanged by construction; user merge and validate callbacks are pure
functions here, matching the claim's assumption.) -/
theorem merge_frame_inputs_unchanged (S : Schema) (st : Store) (ids : List Nat)
    (hids : ∀ i ∈ ids, i < st.length) (rid : Nat) (st2 : Store)
    (h : mergeHeap S st ids = Except.ok (rid, st2)) :
    rid ∉ ids ∧ ∀ i ∈ ids, storeGet st2 i = storeGet st i := by
  unfold mergeHeap at h
  by_cases hlen : ids.length < 2
  · rw [if_pos hlen] at h
    exact Except.noConfusion h
  · rw [if_neg hlen] at h
    cases hfold : mergeHeapFold S st.length (st ++ [[]]) ids with
    | error e =>
        rw [hfold] at h
        exact Except.noConfusion h
    | ok st3 =>
        rw [hfold] at h
        injection h with h
        injection h with h1 h2
        subst h2
        constructor
        · intro hmem
          have h3 := hids rid hmem
          omega
        · intro i hi
          have hne : i ≠ st.length := by
            have := hids i hi
            omega
          rw [mergeHeapFold_frame S st.length ids (st ++ [[]]) st3 hfold i hne]
          exact storeGet_append_lt st [] i (hids i hi)

/-- Witness for `merge_frame_inputs_unchanged`: merging the two records in
a two-object store leaves both inputs at their indices and returns the
fresh index 2. -/
theorem merge_frame_inputs_unchanged_witness :
    (∀ i ∈ [0, 1], i < ([[("foo", Value.num 1)], [("foo", Value.num 2)]] : Store).length) ∧
    mergeHeap fooSchema [[("foo", Value.num 1)], [("foo", Value.num 2)]] [0, 1] =
      Except.ok (2, [[("foo", Value.num 1)], [("foo", Value.num 2)], [("foo", Value.num 2)]]) ∧
    (2 ∉ [0, 1] ∧ ∀ i ∈ [0, 1],
      storeGet [[("foo", Value.num 1)], [("foo", Value.num 2)], [("foo", Value.num 2)]] i =
        storeGet [[("foo", Value.num 1)], [("foo", Value.num 2)]] i) := by
  refine ⟨by decide, rfl, ?_⟩
  exact merge_frame_inputs_unchanged fooSchema
    [[("foo", Value.num 1)], [("foo", Value.num 2)]] [0, 1] (by decide) 2
    [[("foo", Value.num 1)], [("foo", Value.num 2)], [("foo", Value.num 2)]] rfl

/-! ## Claim C8: how validate failures propagate through merge -/

theorem mergeFold_append (S : Schema) :
    ∀ (l1 l2 : List Record) (r0 : Record),
      mergeFold S r0 (l1 ++ l2) =
        match mergeFold S r0 l1 with
        | .error e => Except.error e
        | .ok r => mergeFold S r l2 := by
  intro l1
  induction l1 with
  | nil => intro l2 r0; rfl
  | cons r rest ih =>
      intro l2 r0
      have e1 : mergeFold S r0 ((r :: rest) ++ l2) =
          (match mergeStep S r0 r with
           | .error e => Except.error e
           | .ok res => mergeFold S res (rest ++ l2)) := rfl
      have e2 : mergeFold S r0 (r :: rest) =
          (match mergeStep S r0 r with
           | .error e => Except.error e
           | .ok res => mergeFold S res rest) := rfl
      rw [e1, e2]
      cases hstep : mergeStep S r0 r with
      | error e => rfl
      | ok res => exact ih l2 res

/-- Claim C8 as amended: `merge` validates each record in order during the
fold, and the first failure aborts the whole call with no record returned.
When the fold reaches an invalid record without an earlier failure — every
preceding record is valid and its merge step succeeded — `merge` fails with
exactly that record's validate error, unchanged (not wrapped or
re-prefixed).  A merge-function error thrown during an earlier step,
however, pre-empts a later record's validate failure — see the
counterexample. -/
theorem merge_propagates_first_validate_failure (S : Schema) (pre : List Record)
    (bad : Record) (post : List Record) (acc : Record) (e : JsError)
    (hpre : mergeFold S [] pre = Except.ok acc)
    (hbad : validateRecord S bad = Except.error e)
    (hlen : 2 ≤ (pre ++ bad :: post).length) :
    mergeObjects S (pre ++ bad :: post) = Except.error e := by
  unfold mergeObjects
  rw [if_neg (by omega)]
  rw [mergeFold_append S pre (bad :: post) [], hpre]
  show mergeFold S acc (bad :: post) = Except.error e
  have e2 : mergeFold S acc (bad :: post) =
      (match mergeStep S acc bad with
       | .error e0 => Except.error e0
       | .ok res => mergeFold S res post) := rfl
  have estep : mergeStep S acc bad = Except.error e := by
    unfold mergeStep
    rw [hbad]
  rw [e2, estep]

/-- Witness for `merge_propagates_first_validate_failure`: with a first
valid record, `merge({foo:1}, {x:1})` fails with exactly the unknown-key
error that validating `{x:1}` produces. -/
theorem merge_propagates_first_validate_failure_witness :
    mergeFold fooSchema [] [[("foo", Value.num 1)]] =
      Except.ok [("foo", Value.num 1)] ∧
    validateRecord fooSchema [("x", Value.num 1)] =
      Except.error (.unexpectedKey "x") ∧
    mergeObjects fooSchema [[("foo", Value.num 1)], [("x", Value.num 1)]] =
      Except.error (.unexpectedKey "x") := by
  refine ⟨rfl, rfl, ?_⟩
  exact merge_propagates_first_validate_failure fooSchema [[("foo", Value.num 1)]]
    [("x", Value.num 1)] [] [("foo", Value.num 1)] (.unexpectedKey "x") rfl rfl
    (by decide)

/-- Counterexample to claim C8: with `{ foo: { merge: always-throws, ... } }`,
in `merge({foo:1}, {x:1})` the second record is invalid (unknown key `x`),
yet the call fails with the key-prefixed merge error from the first step —
`Key "foo": Boom!` — not with the second record's validate failure. -/
theorem merge_error_preempts_validate_failure :
    validateRecord boomSchema [("foo", Value.num 1)] = Except.ok () ∧
    validateRecord boomSchema [("x", Value.num 1)] =
      Except.error (.unexpectedKey "x") ∧
    mergeObjects boomSchema [[("foo", Value.num 1)], [("x", Value.num 1)]] =
      Except.error (.keyError "foo" "Boom!") ∧
    JsError.keyError "foo" "Boom!" ≠ JsError.unexpectedKey "x" :=
  ⟨rfl, rfl, rfl, by decide⟩

/-! ## Claim C9: a preset-name merge needs no validate function -/

theorem mergeStrategyMsg_ne_validateMethodMsg (name : String) :
    mergeStrategyMsg name ≠ validateMethodMsg name := by
  intro h
  have hl := congrArg String.length h
  simp only [mergeStrategyMsg, validateMethodMsg, String.length_append] at hl
  rw [show ("\" missing valid merge strategy." : String).length = 31 from rfl,
    show ("\" must have a validate() method." : String).length = 32 from rfl] at hl
  omega

theorem mergePropertyMsg_ne_validateMethodMsg (name : String) :
    mergePropertyMsg name ≠ validateMethodMsg name := by
  intro h
  have hl := congrArg String.length h
  simp only [mergePropertyMsg, validateMethodMsg, String.length_append] at hl
  rw [show ("\" must have a merge property." : String).length = 29 from rfl,
    show ("\" must have a validate() method." : String).length = 32 from rfl] at hl
  omega

/-- Claim C9: an entry whose merge specification names a known preset
passes definition validation no matter what its validate field is (in
particular with none supplied); the missing-validate rejection can only
ever hit an entry whose merge specification is a direct function. -/
theorem preset_merge_needs_no_validate :
    (∀ (name : String) (d : StrategyDef) (s : String),
        d.merge = MergeSpec.name s → isPresetName s = true →
        validateDefinition name d = Except.ok ()) ∧
    (∀ (name : String) (d : StrategyDef),
        validateDefinition name d = Except.error (validateMethodMsg name) →
        ∃ f, d.merge = MergeSpec.fn f) := by
  constructor
  · intro name d s hm hp
    unfold validateDefinition
    simp only [hm]
    rw [if_pos hp]
  · intro name d h
    cases hm : d.merge with
    | name s =>
        exfalso
        unfold validateDefinition at h
        simp only [hm] at h
        by_cases hp : isPresetName s = true
        · rw [if_pos hp] at h
          exact Except.noConfusion h
        · rw [if_neg hp] at h
          injection h with h
          exact mergeStrategyMsg_ne_validateMethodMsg name h
    | fn f => exact ⟨f, rfl⟩
    | missing =>
        exfalso
        unfold validateDefinition at h
        simp only [hm] at h
        injection h with h
        exact mergePropertyMsg_ne_validateMethodMsg name h

/-- Witness for `preset_merge_needs_no_validate`: the entry
`{ date: { merge: "overwrite" } }` — no validate — is accepted, and the
whole construction succeeds on it. -/
theorem preset_merge_needs_no_validate_witness :
    presetDef.merge = MergeSpec.name "overwrite" ∧
    isPresetName "overwrite" = true ∧
    validateDefinition "date" presetDef = Except.ok () ∧
    ∃ p, buildSchema (some [("date", presetDef)]) = Except.ok p := by
  refine ⟨rfl, by decide, ?_, ⟨_, rfl⟩⟩
  exact preset_merge_needs_no_validate.1 "date" presetDef "overwrite" rfl (by decide)

/-! ## Claim C10: the constructor mutates the caller's definitions -/

/-- Claim C10: when a definitions entry's merge is a known preset name, the
constructor replaces that entry of the caller-supplied mapping in place by
a copy whose merge is the resolved preset function; after construction the
caller's mapping no longer holds the original entry for that key. -/
theorem constructor_mutates_definitions :
    ∀ (pre : Definitions) (k : String) (d : StrategyDef) (s : String) (f : MergeFn)
      (post : Definitions) (Sch : Schema) (defs2 : Definitions),
      d.merge = MergeSpec.name s →
      MergeStrategy.lookup s = some f →
      k ∉ pre.map Prod.fst →
      buildSchema (some (pre ++ (k, d) :: post)) = Except.ok (Sch, defs2) →
      defs2.lookup k = some { d with merge := MergeSpec.fn f } ∧
        ({ d with merge := MergeSpec.fn f } : StrategyDef) ≠ d := by
  intro pre
  induction pre with
  | nil =>
      intro k d s f post Sch defs2 hm hf hk h
      have hnorm : normalizeDef d = { d with merge := MergeSpec.fn f } := by
        unfold normalizeDef
        simp only [hm, hf]
      have hval : validateDefinition k d = Except.ok () := by
        unfold validateDefinition
        simp only [hm]
        rw [if_pos (by unfold isPresetName; rw [hf]; rfl)]
      have hEq : buildSchema (some (([] : Definitions) ++ (k, d) :: post)) =
          (match validateDefinition k d with
           | .error e => Except.error e
           | .ok _ =>
              match buildLoop post with
              | .error e => Except.error e
              | .ok (S, rest2) =>
                  Except.ok (⟨(k, toStrategy (normalizeDef d)) :: S.strategies,
                    if (normalizeDef d).required then k :: S.requiredKeys
                    else S.requiredKeys⟩,
                    (k, normalizeDef d) :: rest2)) := rfl
      rw [hEq, hval] at h
      cases hb : buildLoop post with
      | error e =>
          rw [hb] at h
          exact Except.noConfusion h
      | ok p =>
          obtain ⟨S0, rest2⟩ := p
          rw [hb] at h
          injection h with h
          injection h with h1 h2
          subst h2
          constructor
          · show List.lookup k ((k, normalizeDef d) :: rest2) = _
            simp [List.lookup, hnorm]
          · intro heq
            have hmm := congrArg StrategyDef.merge heq
            rw [hm] at hmm
            exact MergeSpec.noConfusion hmm
  | cons p0 rest ih =>
      obtain ⟨k0, d0⟩ := p0
      intro k d s f post Sch defs2 hm hf hk h
      have hk0 : k0 ≠ k := by
        intro hh
        apply hk
        rw [← hh]
        exact List.mem_cons_self k0 _
      have hk' : k ∉ rest.map Prod.fst := fun hh => hk (List.mem_cons_of_mem _ hh)
      have hEq : buildSchema (some (((k0, d0) :: rest) ++ (k, d) :: post)) =
          (match validateDefinition k0 d0 with
           | .error e => Except.error e
           | .ok _ =>
              match buildLoop (rest ++ (k, d) :: post) with
              | .error e => Except.error e
              | .ok (S, rest2) =>
                  Except.ok (⟨(k0, toStrategy (normalizeDef d0)) :: S.strategies,
                    if (normalizeDef d0).required then k0 :: S.requiredKeys
                    else S.requiredKeys⟩,
                    (k0, normalizeDef d0) :: rest2)) := rfl
      rw [hEq] at h
      cases hv0 : validateDefinition k0 d0 with
      | error e =>
          rw [hv0] at h
          exact Except.noConfusion h
      | ok u =>
          cases u
          rw [hv0] at h
          cases hb : buildLoop (rest ++ (k, d) :: post) with
          | error e =>
              rw [hb] at h
              exact Except.noConfusion h
          | ok p =>
              obtain ⟨S0, rest2⟩ := p
              rw [hb] at h
              injection h with h
              injection h with h1 h2
              subst h2
              have hrec := ih k d s f post S0 rest2 hm hf hk' hb
              constructor
              · show List.lookup k ((k0, normalizeDef d0) :: rest2) = _
                have hbeq : (k == k0) = false :=
                  beq_eq_false_iff_ne.mpr (Ne.symm hk0)
                simp only [List.lookup, hbeq]
                exact hrec.1
              · exact hrec.2

/-- Witness for `constructor_mutates_definitions`: after constructing a
schema from `{ date: { merge: "overwrite" } }`, the caller's mapping holds
a different entry for `date`, with the preset resolved to a function. -/
theorem constructor_mutates_definitions_witness :
    presetDef.merge = MergeSpec.name "overwrite" ∧
    buildSchema (some [("date", presetDef)]) =
      Except.ok (⟨[("date", toStrategy (normalizeDef presetDef))], []⟩,
        [("date", normalizeDef presetDef)]) ∧
    ([("date", normalizeDef presetDef)] : Definitions).lookup "date" =
      some { presetDef with merge := MergeSpec.fn (fun _ b => Except.ok b) } ∧
    ({ presetDef with merge := MergeSpec.fn (fun _ b => Except.ok b) } : StrategyDef) ≠
      presetDef := by
  refine ⟨rfl, rfl, ?_, ?_⟩
  · exact (constructor_mutates_definitions [] "date" presetDef "overwrite"
      (fun _ b => Except.ok b) [] _ _ rfl rfl (by simp) rfl).1
  · exact (constructor_mutates_definitions [] "date" presetDef "overwrite"
      (fun _ b => Except.ok b) [] _ _ rfl rfl (by simp) rfl).2

end ObjSchema
